import Mathlib

/-!
Verification development for the `unifile` repository.

The repository ships three near-identical Python modules:
* `build/lib/unifile/unifile.py` (namespace `unifile` below): the packaged
  variant, with input validation, an umlaut substitution table, a collision
  suffix loop and a directory-merge branch;
* `src/unifile/unifile.py` (namespace `unifileSrc` below): an older variant of
  `process_directory` without the collision/merge logic, whose documented
  two-parameter `clean_filename` is shadowed at module load by a second,
  one-parameter definition further down the file;
* `src/utf8fix/utf8fix.py` (namespace `utf8fix` below): a minimal variant with
  no validation, no umlaut table and no collision handling.

Names are modelled as Lean `String`s (lists of characters); the external
`unicodedata` library is modelled by a per-character decomposition table
covering the characters exercised here, and the filesystem by a finite tree
with the standard POSIX rename/move semantics the spec assumes of the OS.
-/

/-- Python truthiness-relevant dynamic values: the argument positions of
`clean_filename` accept arbitrary objects, modelled by this small universe. -/
inductive PyVal where
  | str (s : String)
  | int (n : Int)
  | pyNone
deriving DecidableEq, Repr

/-- The exception classes that the modelled code can raise.  Only the class
matters for the claims, so no message payload is carried. -/
inductive PyError where
  | typeError
  | valueError
  | osError
  | shutilError
deriving DecidableEq, Repr

/-- The two recognized cleaning modes of `unifile.clean_filename`; mode
validation on raw dynamic values is done by the `clean_filename` wrapper. -/
inductive Mode where
  | preserve
  | ascii
deriving DecidableEq, Repr

/-- Python `ord(c) < 32`: the control-character test of both cleaners. -/
def isControlChar (c : Char) : Bool := c.toNat < 32

/-- Model of `unicodedata.combining(c) != 0`, restricted to the combining
diacritical marks block (U+0300 to U+036F), which is the only block the
decompositions in this development produce. -/
def isCombining (c : Char) : Bool := 768 ≤ c.toNat && c.toNat ≤ 879

/-- Model of `unicodedata.normalize('NFKD', s)` at a single character: a
decomposition table for the precomposed letters exercised by the repository
(examples, tests and spec).  Characters outside the table decompose to
themselves; in particular every ASCII character is its own decomposition, and
U+00DF (sharp s) and U+1E9E (capital sharp s) have no decomposition. -/
def nfkdChar (c : Char) : List Char :=
  if c = 'ä' then ['a', '̈']
  else if c = 'Ä' then ['A', '̈']
  else if c = 'ö' then ['o', '̈']
  else if c = 'Ö' then ['O', '̈']
  else if c = 'ü' then ['u', '̈']
  else if c = 'Ü' then ['U', '̈']
  else if c = 'é' then ['e', '́']
  else if c = 'è' then ['e', '̀']
  else if c = 'ñ' then ['n', '̃']
  else [c]

/-- Model of `unicodedata.normalize('NFKD', ·)` over a whole name. -/
def nfkdStr (l : List Char) : List Char := (l.map nfkdChar).flatten

/-- Python `str.replace(pat, rep)` for a one-character pattern: every
occurrence of `pat` is replaced by `rep`. -/
def replaceChar (pat : Char) (rep : List Char) : List Char → List Char
  | [] => []
  | c :: cs => (if c = pat then rep else [c]) ++ replaceChar pat rep cs

/-- The `UMLAUT_MAP` table of `unifile.py`, in definition (iteration) order. -/
def UMLAUT_MAP : List (Char × List Char) :=
  [('ä', ['a', 'e']), ('Ä', ['A', 'e']),
   ('ö', ['o', 'e']), ('Ö', ['O', 'e']),
   ('ü', ['u', 'e']), ('Ü', ['U', 'e']),
   ('ß', ['s', 's']), ('ẞ', ['S', 's'])]

/-- The `for umlaut, replacement in UMLAUT_MAP.items()` loop of
`unifile.clean_filename`: one `str.replace` per table entry, in order. -/
def applyUmlautMap (l : List Char) : List Char :=
  UMLAUT_MAP.foldl (fun acc pr => replaceChar pr.1 pr.2 acc) l

/-- The suffix of the name after its last control character: this is
`parts[-1]` for `parts = re.split(r'[\x00-\x1f]+', filename)`, since the last
element of such a split is the maximal control-free suffix. -/
def lastControlSegment (l : List Char) : List Char :=
  (l.reverse.takeWhile (fun c => !isControlChar c)).reverse

/-- Index of the last dot of a name, if any. -/
def lastDotIdx (l : List Char) : Option Nat :=
  match l.reverse.findIdx? (· == '.') with
  | none => none
  | some r => some (l.length - 1 - r)

/-- Model of `os.path.splitext` restricted to bare names (no path
separators): the extension starts at the last dot, unless every character
before that dot is itself a dot (leading dots never start an extension). -/
def splitext (l : List Char) : List Char × List Char :=
  match lastDotIdx l with
  | none => (l, [])
  | some i =>
    if (l.take i).any (fun c => c ≠ '.') then (l.take i, l.drop i) else (l, [])

/-- Lines 53-56 of `unifile.py`: when the name contains a control character it
is replaced by the literal token plus the extension of the segment after the
last control run.  The Python conditional expression
`'filewithNull' + ext if parts[-1] else ''` binds as
`('filewithNull' + ext) if parts[-1] else ''`, so an empty final segment
yields the empty string, not the bare token. -/
def collapseControl (l : List Char) : List Char :=
  if l.any isControlChar then
    if (lastControlSegment l).isEmpty then []
    else "filewithNull".data ++ (splitext (lastControlSegment l)).2
  else l

namespace unifile

/-- Character-level core of `unifile.clean_filename` (lines 53-73 of
`build/lib/unifile/unifile.py`): control collapse, then in ascii mode the
umlaut table, NFKD, the combining filter and the ASCII filter, in that
order. -/
def clean_chars (l : List Char) (mode : Mode) : List Char :=
  let l1 := collapseControl l
  match mode with
  | .preserve => l1
  | .ascii =>
    let l2 := applyUmlautMap l1
    let l3 := nfkdStr l2
    let l4 := l3.filter (fun c => !isCombining c)
    l4.filter (fun c => c.toNat < 128)

/-- The function `unifile.clean_filename` on a string input with a recognized mode. -/
def clean_filename_core (s : String) (mode : Mode) : String :=
  ⟨clean_chars s.data mode⟩

/-- The function `unifile.clean_filename` as called on dynamic values: lines 48-51 raise
`TypeError` for a non-string filename, then `ValueError` when the mode is not
one of the two recognized strings. -/
def clean_filename (filename mode : PyVal) : Except PyError String :=
  match filename with
  | .str s =>
    if mode = PyVal.str ⟨['p', 'r', 'e', 's', 'e', 'r', 'v', 'e']⟩ then
      .ok (clean_filename_core s .preserve)
    else if mode = PyVal.str ⟨['a', 's', 'c', 'i', 'i']⟩ then
      .ok (clean_filename_core s .ascii)
    else .error .valueError
  | _ => .error .typeError

end unifile

namespace utf8fix

/-- Model of `re.sub(r'[\x00-\x1f]+', 'withNull', filename, count=1)`: only the first
maximal run of control characters is replaced. -/
def subControlOnce (l : List Char) : List Char :=
  let pre := l.takeWhile (fun c => !isControlChar c)
  let rest := l.dropWhile (fun c => !isControlChar c)
  if rest.isEmpty then l
  else pre ++ "withNull".data ++ rest.dropWhile isControlChar

/-- Character-level core of `utf8fix.clean_filename` (lines 7-17 of
`src/utf8fix/utf8fix.py`): first-run control substitution, then for
`mode == 'ascii'` NFKD followed by a single comprehension dropping combining
marks and non-ASCII characters.  There is no umlaut table and no validation;
any mode other than the exact string given by `asciiLit` is a pass-through. -/
def clean_chars (l : List Char) (mode : String) : List Char :=
  let l1 := subControlOnce l
  if mode = ⟨['a', 's', 'c', 'i', 'i']⟩ then
    (nfkdStr l1).filter (fun c => !isCombining c && c.toNat < 128)
  else l1

/-- The function `utf8fix.clean_filename` on a string input. -/
def clean_filename_core (s : String) (mode : String) : String :=
  ⟨clean_chars s.data mode⟩

/-- The function `utf8fix.clean_filename` on dynamic values: the body performs no
validation of its own; a non-string filename makes `re.sub` raise `TypeError`,
and the mode is never checked at all. -/
def clean_filename (filename mode : PyVal) : Except PyError String :=
  match filename, mode with
  | .str s, .str m => .ok (clean_filename_core s m)
  | .str s, _ => .ok (clean_filename_core s ⟨[]⟩)
  | _, _ => .error .typeError
end utf8fix

/-- A filesystem subtree: a file (with an abstract content identifier used to
detect data loss) or a directory with a listing of named children. -/
inductive FSTree where
  | file (data : Nat)
  | dir (children : List (String × FSTree))
deriving Repr

/-- Directory listings. -/
abbrev Children := List (String × FSTree)

def FSTree.isFile : FSTree → Bool
  | .file _ => true
  | .dir _ => false

/-- Lookup of one entry by name, as a scan of the `os.listdir` listing. -/
def lookupChild (cs : Children) (n : String) : Option FSTree :=
  (cs.find? (fun e => e.1 == n)).map (·.2)

/-- Model of `os.path.exists` for an entry name inside one directory. -/
def hasChild (cs : Children) (n : String) : Bool :=
  cs.any (fun e => e.1 == n)

/-- Removal of one entry by name (the source side of a rename/move). -/
def eraseChild (cs : Children) (n : String) : Children :=
  cs.eraseP (fun e => e.1 == n)

/-- Replacement of the subtree listed under an existing name. -/
def setChild (cs : Children) (n : String) (t : FSTree) : Children :=
  cs.map (fun e => if e.1 == n then (n, t) else e)

/-- Decimal digit character. -/
def digitChar (n : Nat) : Char := Char.ofNat (48 + n)

/-- Decimal rendering of a counter, as Python's `str(counter)`. -/
def natChars (n : Nat) : List Char :=
  if _h : n < 10 then [digitChar n] else natChars (n / 10) ++ [digitChar (n % 10)]
decreasing_by exact Nat.div_lt_self (by omega) (by omega)

/-- The Python f-string `f"{base}-{counter}{ext}"`. -/
def mkCand (base ext : List Char) (n : Nat) : String :=
  ⟨base ++ '-' :: (natChars n ++ ext)⟩

/-- The `while os.path.exists(...)` suffix loop shared by the collision
branches: starting at counter `n`, return the first candidate
`f"{base}-{counter}{ext}"` that is not an existing entry of `cs`.  The loop is
modelled with explicit fuel; `cs.length + 1` candidates always include a free
one, so the fuel never actually runs out (proved below). -/
def searchFrom (cs : Children) (base ext : List Char) : Nat → Nat → String
  | n, 0 => mkCand base ext n
  | n, fuel + 1 =>
    let cand := mkCand base ext n
    if hasChild cs cand then searchFrom cs base ext (n + 1) fuel else cand

/-- Lines 116-123 of `unifile.py`: the target actually used for a file rename;
the uncleaned collision-free case keeps `new_name` itself, otherwise the
suffix loop runs from counter 1. -/
def findFreeTarget (cs : Children) (new_name : String) : String :=
  if hasChild cs new_name then
    let pr := splitext new_name.data
    searchFrom cs pr.1 pr.2 1 (cs.length + 1)
  else new_name

/-- POSIX `os.rename` between two names of one directory listing, with the
standard semantics the spec assumes of the OS: an existing file target is
silently replaced by a file source, a directory target must be an empty
directory, and renames across entry kinds fail. -/
def osRename (cs : Children) (old new : String) : Except PyError Children :=
  match lookupChild cs old with
  | none => .error .osError
  | some t =>
    match lookupChild cs new with
    | none => .ok (eraseChild cs old ++ [(new, t)])
    | some u =>
      match t, u with
      | .file _, .file _ => .ok (eraseChild (eraseChild cs old) new ++ [(new, t)])
      | .file _, .dir _ => .error .osError
      | .dir _, .file _ => .error .osError
      | .dir _, .dir us =>
        if us.isEmpty then .ok (eraseChild (eraseChild cs old) new ++ [(new, t)])
        else .error .osError

/-- The visible log records; only the record kinds and the names involved are
modelled. -/
inductive LogEv where
  | wouldRenameFile (old new : String)
  | wouldRenameDir (old new : String)
  | renamedFile (old new : String)
  | renamedDir (old new : String)
  | errorFile (old : String)
  | errorDir (old : String)
  | mergedDir (old new : String)
  | errorEntry (name : String)
deriving Repr, DecidableEq

/-- Outcome of a run of a tree rewriter.  Python exceptions do not roll back
earlier mutations, so the `raised` case of an uncaught exception carries the
tree and log as they stood when the exception escaped. -/
inductive RunRes where
  | ok (fs : FSTree) (log : List LogEv)
  | raised (e : PyError) (fs : FSTree) (log : List LogEv)
deriving Repr

def RunRes.fs : RunRes → FSTree
  | .ok t _ => t
  | .raised _ t _ => t

def RunRes.log : RunRes → List LogEv
  | .ok _ l => l
  | .raised _ _ l => l

def RunRes.isRaised : RunRes → Bool
  | .ok _ _ => false
  | .raised _ _ _ => true

/-- Model of `shutil.move(src, dstParent/dstName)` landing in the listing `dcs` of the
destination directory, for a source entry of base name `srcName` and subtree
`t`: a free destination is a plain rename into place; a directory destination
receives the source inside itself under `srcName`, failing with
`shutil.Error` when that name is taken; a file destination is replaced by a
file source (POSIX `os.rename`) and fails for a directory source.  On failure
the listing is unchanged. -/
def shutilMoveInto (dcs : Children) (dstName srcName : String) (t : FSTree) :
    Children × Option PyError :=
  match lookupChild dcs dstName with
  | none => (dcs ++ [(dstName, t)], none)
  | some (.dir ucs) =>
    if hasChild ucs srcName then (dcs, some .shutilError)
    else (setChild dcs dstName (.dir (ucs ++ [(srcName, t)])), none)
  | some (.file _) =>
    match t with
    | .file _ => (eraseChild dcs dstName ++ [(dstName, t)], none)
    | .dir _ => (dcs, some .osError)

namespace unifile

/-- Lines 160-162 of `unifile.py`: the inner loop of the merge for a
sub-directory whose name already exists in the target — every grandchild is
moved with `shutil.move(s/subitem, d/subitem)` with no collision handling.
Returns the updated target listing and the grandchildren still left in the
source when a move raises (the exception is not caught anywhere). -/
def moveGrandchildren (ucs : Children) : Children → (Children × Children) × Option PyError
  | [] => ((ucs, []), none)
  | (n, w) :: rest =>
    match shutilMoveInto ucs n n w with
    | (ucs', none) => moveGrandchildren ucs' rest
    | (ucs', some e) => ((ucs', (n, w) :: rest), some e)

/-- Lines 141-164 of `unifile.py`: the merge loop over `os.listdir(old_path)`.
State is the target directory's listing `dcs` plus the items remaining in the
source; a file item colliding with an existing entry goes through the suffix
loop (counter starting at 1), a directory item colliding with an existing
directory has its children moved one level with no deeper collision handling,
and a raised exception stops the loop with the partial state. -/
def mergeChildren (dcs : Children) : Children → (Children × Children) × Option PyError
  | [] => ((dcs, []), none)
  | (name, t) :: rest =>
    match lookupChild dcs name with
    | none => mergeChildren (dcs ++ [(name, t)]) rest
    | some u =>
      match t with
      | .file _ =>
        let pr := splitext name.data
        let target := searchFrom dcs pr.1 pr.2 1 (dcs.length + 1)
        match shutilMoveInto dcs target name t with
        | (dcs', none) => mergeChildren dcs' rest
        | (dcs', some e) => ((dcs', (name, t) :: rest), some e)
      | .dir scs =>
        match u with
        | .file _ =>
          -- `d = new_path/item` is a path under a file, so it does not exist
          -- and `shutil.move(s, d)` raises ENOTDIR on the first grandchild;
          -- an empty source is silently removed by `os.rmdir(s)`.
          if scs.isEmpty then mergeChildren dcs rest
          else ((dcs, (name, t) :: rest), some .osError)
        | .dir ucs =>
          match moveGrandchildren ucs scs with
          | ((ucs', _), none) => mergeChildren (setChild dcs name (.dir ucs')) rest
          | ((ucs', rem), some e) =>
            ((setChild dcs name (.dir ucs'), (name, .dir rem) :: rest), some e)

/-- Lines 108-128 of `unifile.py`: one iteration of the files loop of a
yielded triple.  The rename is wrapped in `try/except OSError`, so a file
entry never lets an exception escape. -/
def processFileEntry (mode : Mode) (dry : Bool) (cs : Children) (name : String) :
    Children × List LogEv :=
  let new_name := clean_filename_core name mode
  if new_name = name then (cs, [])
  else if dry then (cs, [.wouldRenameFile name new_name])
  else
    let target := findFreeTarget cs new_name
    match osRename cs name target with
    | .ok cs' => (cs', [.renamedFile name target])
    | .error _ => (cs, [.errorFile name])

/-- Lines 131-172 of `unifile.py`: one iteration of the dirs loop of a yielded
triple.  The merge branch (lines 139-166) is not inside any `try`, so an
exception raised there escapes `process_directory`; only the plain-rename
branch catches `OSError`. -/
def processDirEntry (mode : Mode) (dry : Bool) (cs : Children) (name : String) :
    Children × List LogEv × Option PyError :=
  let new_name := clean_filename_core name mode
  if new_name = name then (cs, [], none)
  else if dry then (cs, [.wouldRenameDir name new_name], none)
  else
    if hasChild cs new_name then
      match lookupChild cs name, lookupChild cs new_name with
      | some (.dir scs), some (.dir dcs) =>
        match mergeChildren dcs scs with
        | ((dcs', _), none) =>
          (setChild (eraseChild cs name) new_name (.dir dcs'),
           [.mergedDir name new_name], none)
        | ((dcs', rem), some e) =>
          (setChild (setChild cs name (.dir rem)) new_name (.dir dcs'), [], some e)
      | some (.dir scs), some (.file _) =>
        if scs.isEmpty then (eraseChild cs name, [.mergedDir name new_name], none)
        else (cs, [], some .osError)
      | _, _ => (cs, [], some .osError)
    else
      match osRename cs name new_name with
      | .ok cs' => (cs', [.renamedDir name new_name], none)
      | .error _ => (cs, [.errorDir name], none)

/-- The files loop of one triple, over the snapshot of file names. -/
def processFiles (mode : Mode) (dry : Bool) (cs : Children) :
    List String → Children × List LogEv
  | [] => (cs, [])
  | n :: rest =>
    let (cs', lg) := processFileEntry mode dry cs n
    let (cs'', lg2) := processFiles mode dry cs' rest
    (cs'', lg ++ lg2)

/-- The dirs loop of one triple, stopping when an exception escapes an
iteration. -/
def processDirs (mode : Mode) (dry : Bool) (cs : Children) :
    List String → Children × List LogEv × Option PyError
  | [] => (cs, [], none)
  | n :: rest =>
    match processDirEntry mode dry cs n with
    | (cs', lg, some e) => (cs', lg, some e)
    | (cs', lg, none) =>
      let (cs'', lg2, e2) := processDirs mode dry cs' rest
      (cs'', lg ++ lg2, e2)

mutual

/-- Model of `os.walk(·, topdown=False)` as used by `unifile.process_directory`: the
interiors of all children are fully processed (their own triples included)
before this directory's triple runs its files loop and then its dirs loop.
Renaming an entry changes nothing inside it, so the snapshot the walk took of
this listing agrees with the processed listing's names. -/
def processTree (mode : Mode) (dry : Bool) : FSTree → FSTree × List LogEv × Option PyError
  | .file d => (.file d, [], none)
  | .dir cs =>
    match processChildren mode dry cs with
    | (cs1, log1, some e) => (.dir cs1, log1, some e)
    | (cs1, log1, none) =>
      let fileNames := (cs1.filter (fun c => c.2.isFile)).map (·.1)
      let dirNames := (cs1.filter (fun c => !c.2.isFile)).map (·.1)
      let (cs2, log2) := processFiles mode dry cs1 fileNames
      match processDirs mode dry cs2 dirNames with
      | (cs3, log3, e3) => (.dir cs3, log1 ++ log2 ++ log3, e3)

/-- Bottom-up processing of the interiors of each child, in listing order; an
uncaught exception in one interior aborts the whole walk. -/
def processChildren (mode : Mode) (dry : Bool) : Children → Children × List LogEv × Option PyError
  | [] => ([], [], none)
  | (n, t) :: rest =>
    match processTree mode dry t with
    | (t', lg, some e) => ((n, t') :: rest, lg, some e)
    | (t', lg, none) =>
      match processChildren mode dry rest with
      | (rest', lg2, e2) => ((n, t') :: rest', lg ++ lg2, e2)

end

/-- The function `unifile.process_directory(directory, mode, dry_run)` run on a directory
tree (the `TypeError`/`ValueError`/`PermissionError` validation of the raw
`directory` argument happens before any traversal and is outside this model,
which starts from an existing readable directory). -/
def process_directory (t : FSTree) (mode : Mode) (dry : Bool) : RunRes :=
  match processTree mode dry t with
  | (t', lg, none) => .ok t' lg
  | (t', lg, some e) => .raised e t' lg

end unifile

mutual

/-- The multiset (as a list) of file contents of a subtree, used to express
whether any original entry's data was lost or duplicated by a run. -/
def FSTree.datas : FSTree → List Nat
  | .file d => [d]
  | .dir cs => childDatas cs

/-- The file contents below a directory listing. -/
def childDatas : Children → List Nat
  | [] => []
  | (_, t) :: rest => t.datas ++ childDatas rest

end

namespace utf8fix

/-- Lines 35-47 of `utf8fix.py`: one iteration of the directory loop of the
first pass.  The whole body — the `clean_filename` call included — sits in
`try/except Exception`, so nothing escapes; `os.rename` is called with no
collision check of any kind. -/
def processDirEntry (mode : String) (dry : Bool) (cs : Children) (name : String) :
    Children × List LogEv :=
  let new_name := clean_filename_core name mode
  if new_name = name then (cs, [])
  else if dry then (cs, [.wouldRenameDir name new_name])
  else
    match osRename cs name new_name with
    | .ok cs' => (cs', [.renamedDir name new_name])
    | .error _ => (cs, [.errorEntry name])

/-- Lines 51-63 of `utf8fix.py`: one iteration of the file loop of the second
pass, likewise entirely inside `try/except Exception` and with no collision
check: an existing file at the target is silently replaced. -/
def processFileEntry (mode : String) (dry : Bool) (cs : Children) (name : String) :
    Children × List LogEv :=
  let new_name := clean_filename_core name mode
  if new_name = name then (cs, [])
  else if dry then (cs, [.wouldRenameFile name new_name])
  else
    match osRename cs name new_name with
    | .ok cs' => (cs', [.renamedFile name new_name])
    | .error _ => (cs, [.errorEntry name])

/-- The directory loop of one triple of the first pass. -/
def dirsLoop (mode : String) (dry : Bool) (cs : Children) :
    List String → Children × List LogEv
  | [] => (cs, [])
  | n :: rest =>
    let (cs', lg) := processDirEntry mode dry cs n
    let (cs'', lg2) := dirsLoop mode dry cs' rest
    (cs'', lg ++ lg2)

/-- The file loop of one triple of the second pass. -/
def filesLoop (mode : String) (dry : Bool) (cs : Children) :
    List String → Children × List LogEv
  | [] => (cs, [])
  | n :: rest =>
    let (cs', lg) := processFileEntry mode dry cs n
    let (cs'', lg2) := filesLoop mode dry cs' rest
    (cs'', lg ++ lg2)

mutual

/-- First pass (lines 33-47): `os.walk(directory, topdown=False)` renaming
directories bottom-up. -/
def dirsPassTree (mode : String) (dry : Bool) : FSTree → FSTree × List LogEv
  | .file d => (.file d, [])
  | .dir cs =>
    match dirsPassChildren mode dry cs with
    | (cs1, lg1) =>
      let dirNames := (cs1.filter (fun c => !c.2.isFile)).map (·.1)
      let (cs2, lg2) := dirsLoop mode dry cs1 dirNames
      (.dir cs2, lg1 ++ lg2)

def dirsPassChildren (mode : String) (dry : Bool) : Children → Children × List LogEv
  | [] => ([], [])
  | (n, t) :: rest =>
    match dirsPassTree mode dry t with
    | (t', lg) =>
      match dirsPassChildren mode dry rest with
      | (rest', lg2) => ((n, t') :: rest', lg ++ lg2)

end

mutual

/-- Second pass (lines 50-63): `os.walk(directory)` renaming files; this pass
runs on the tree as the first pass left it.  The real walk is top-down, but
every operation of this pass is local to one directory's listing, so the
loops of distinct directories commute; the recursion here descends first,
which produces the same final tree with the same log records. -/
def filesPassTree (mode : String) (dry : Bool) : FSTree → FSTree × List LogEv
  | .file d => (.file d, [])
  | .dir cs =>
    match filesPassChildren mode dry cs with
    | (cs1, lg1) =>
      let fileNames := (cs1.filter (fun c => c.2.isFile)).map (·.1)
      match filesLoop mode dry cs1 fileNames with
      | (cs2, lg2) => (.dir cs2, lg2 ++ lg1)

def filesPassChildren (mode : String) (dry : Bool) : Children → Children × List LogEv
  | [] => ([], [])
  | (n, t) :: rest =>
    match filesPassTree mode dry t with
    | (t', lg) =>
      match filesPassChildren mode dry rest with
      | (rest', lg2) => ((n, t') :: rest', lg ++ lg2)

end

/-- The function `utf8fix.process_directory(directory, mode, dry_run)` on a directory tree
(the pre-traversal argument validation is outside this model): the
directories pass, then the files pass.  Every entry is processed inside
`try/except Exception`, so no exception ever escapes either pass. -/
def process_directory (t : FSTree) (mode : String) (dry : Bool) : RunRes :=
  match dirsPassTree mode dry t with
  | (t1, lg1) =>
    match filesPassTree mode dry t1 with
    | (t2, lg2) => .ok t2 (lg1 ++ lg2)

end utf8fix

namespace unifileSrc

/-- The second, one-parameter `clean_filename` of `src/unifile/unifile.py`
(lines 138-148): an `encode('utf-8', errors='ignore')` round-trip, which is
the identity on every well-formed unicode string of this model (lone
surrogates cannot occur in Lean strings). -/
def clean_filename_v2 (filename : String) : String := filename

/-- The module-level effect of the duplicate definition: at import time the
one-parameter `clean_filename` replaces the documented two-parameter one, so
the two-argument call sites inside `process_directory` raise `TypeError`
(too many positional arguments) before the function body runs. -/
def call_clean_filename : List PyVal → Except PyError String
  | [PyVal.str s] => .ok (clean_filename_v2 s)
  | [_] => .error .typeError
  | _ => .error .typeError

/-- Lines 103-115 of `src/unifile/unifile.py`: one file iteration.  Only the
`os.rename` call is inside `try/except OSError`; the `clean_filename(name,
mode)` call at line 105 is not, so its `TypeError` escapes. -/
def processFileEntry (mode : PyVal) (dry : Bool) (cs : Children) (name : String) :
    Children × List LogEv × Option PyError :=
  match call_clean_filename [PyVal.str name, mode] with
  | .error e => (cs, [], some e)
  | .ok new_name =>
    if new_name = name then (cs, [], none)
    else if dry then (cs, [.wouldRenameFile name new_name], none)
    else
      match osRename cs name new_name with
      | .ok cs' => (cs', [.renamedFile name new_name], none)
      | .error _ => (cs, [.errorFile name], none)

/-- Lines 118-130 of `src/unifile/unifile.py`: one directory iteration, with
the same structure (no collision handling, `clean_filename` outside the
`try`). -/
def processDirEntry (mode : PyVal) (dry : Bool) (cs : Children) (name : String) :
    Children × List LogEv × Option PyError :=
  match call_clean_filename [PyVal.str name, mode] with
  | .error e => (cs, [], some e)
  | .ok new_name =>
    if new_name = name then (cs, [], none)
    else if dry then (cs, [.wouldRenameDir name new_name], none)
    else
      match osRename cs name new_name with
      | .ok cs' => (cs', [.renamedDir name new_name], none)
      | .error _ => (cs, [.errorDir name], none)

/-- The files loop of one triple, stopping when an exception escapes. -/
def filesLoop (mode : PyVal) (dry : Bool) (cs : Children) :
    List String → Children × List LogEv × Option PyError
  | [] => (cs, [], none)
  | n :: rest =>
    match processFileEntry mode dry cs n with
    | (cs', lg, some e) => (cs', lg, some e)
    | (cs', lg, none) =>
      match filesLoop mode dry cs' rest with
      | (cs'', lg2, e2) => (cs'', lg ++ lg2, e2)

/-- The dirs loop of one triple, stopping when an exception escapes. -/
def dirsLoop (mode : PyVal) (dry : Bool) (cs : Children) :
    List String → Children × List LogEv × Option PyError
  | [] => (cs, [], none)
  | n :: rest =>
    match processDirEntry mode dry cs n with
    | (cs', lg, some e) => (cs', lg, some e)
    | (cs', lg, none) =>
      match dirsLoop mode dry cs' rest with
      | (cs'', lg2, e2) => (cs'', lg ++ lg2, e2)

mutual

/-- Model of `os.walk(·, topdown=False)` of `unifileSrc.process_directory`: child
interiors first, then this directory's files loop and dirs loop. -/
def processTree (mode : PyVal) (dry : Bool) : FSTree → FSTree × List LogEv × Option PyError
  | .file d => (.file d, [], none)
  | .dir cs =>
    match processChildren mode dry cs with
    | (cs1, lg1, some e) => (.dir cs1, lg1, some e)
    | (cs1, lg1, none) =>
      let fileNames := (cs1.filter (fun c => c.2.isFile)).map (·.1)
      let dirNames := (cs1.filter (fun c => !c.2.isFile)).map (·.1)
      match filesLoop mode dry cs1 fileNames with
      | (cs2, lg2, some e) => (.dir cs2, lg1 ++ lg2, some e)
      | (cs2, lg2, none) =>
        match dirsLoop mode dry cs2 dirNames with
        | (cs3, lg3, e3) => (.dir cs3, lg1 ++ lg2 ++ lg3, e3)

def processChildren (mode : PyVal) (dry : Bool) : Children → Children × List LogEv × Option PyError
  | [] => ([], [], none)
  | (n, t) :: rest =>
    match processTree mode dry t with
    | (t', lg, some e) => ((n, t') :: rest, lg, some e)
    | (t', lg, none) =>
      match processChildren mode dry rest with
      | (rest', lg2, e2) => ((n, t') :: rest', lg ++ lg2, e2)

end

/-- The function `unifileSrc.process_directory(directory, mode, dry_run)` on a directory
tree (pre-traversal argument validation outside the model). -/
def process_directory (t : FSTree) (mode : PyVal) (dry : Bool) : RunRes :=
  match processTree mode dry t with
  | (t', lg, none) => .ok t' lg
  | (t', lg, some e) => .raised e t' lg

end unifileSrc

/-- Subtree lookup at a relative path. -/
def getAt : FSTree → List String → Option FSTree
  | t, [] => some t
  | .file _, _ :: _ => none
  | .dir cs, n :: p =>
    match lookupChild cs n with
    | none => none
    | some c => getAt c p

/-- The listing of the directory at a path (empty when the path is missing or
names a file). -/
def childrenAt (t : FSTree) (p : List String) : Children :=
  match getAt t p with
  | some (.dir cs) => cs
  | _ => []

/-- Replace the listing of the directory at a path. -/
def setChildrenAt : FSTree → List String → Children → FSTree
  | .dir _, [], cs => .dir cs
  | .dir cs0, n :: p, cs =>
    .dir (cs0.map (fun e => if e.1 == n then (n, setChildrenAt e.2 p cs) else e))
  | t, _, _ => t

mutual

/-- Number of entries of a subtree, the node itself included; entries are
only renamed, moved or removed by the rewriters, never created, so this
bounds the work of the recursive glob below at every point of a run. -/
def FSTree.entryCount : FSTree → Nat
  | .file _ => 1
  | .dir cs => 1 + childEntryCount cs

/-- Total entry count of a listing. -/
def childEntryCount : Children → Nat
  | [] => 0
  | (_, t) :: rest => t.entryCount + childEntryCount rest

end

namespace unifile

/-- Lines 208-267 of `unifile.py`: the body of one iteration of
`process_path`, entirely inside `try/except Exception`.  `item.is_file()` is
false for a vanished item, so such an item falls into the directory branch,
where its operations fail and are logged.  The directory-merge branch reuses
the same moves as `process_directory`'s merge (lines 236-259 are the same
loop), and any exception it raises is caught by the per-item handler with the
partial state kept. -/
def processItem (mode : Mode) (dry : Bool) (t : FSTree) (parent : List String)
    (name : String) : FSTree × List LogEv :=
  let new_name := clean_filename_core name mode
  if new_name = name then (t, [])
  else
    let itemPath := parent ++ [name]
    let isFile := match getAt t itemPath with
      | some (.file _) => true
      | _ => false
    if dry then
      if isFile then (t, [.wouldRenameFile name new_name])
      else (t, [.wouldRenameDir name new_name])
    else if isFile then
      -- lines 221-233: suffix search over the parent listing, then
      -- shutil.move inside try/except OSError
      let pcs := childrenAt t parent
      let target := findFreeTarget pcs new_name
      match lookupChild pcs name with
      | some x =>
        (setChildrenAt t parent (eraseChild pcs name ++ [(target, x)]),
         [.renamedFile name target])
      | none => (t, [.errorFile name])
    else
      -- lines 234-265: directory branch
      match getAt t parent with
      | some (.dir pcs) =>
        match lookupChild pcs new_name with
        | some (.dir dcs) =>
          match lookupChild pcs name with
          | some (.dir scs) =>
            match mergeChildren dcs scs with
            | ((dcs', _), none) =>
              (setChildrenAt t parent
                 (setChild (eraseChild pcs name) new_name (.dir dcs')),
               [.mergedDir name new_name])
            | ((dcs', rem), some _) =>
              (setChildrenAt t parent
                 (setChild (setChild pcs name (.dir rem)) new_name (.dir dcs')),
               [.errorEntry name])
          | _ =>
            -- the item is gone or a file: `item.iterdir()` raises, the
            -- per-item handler logs it
            (t, [.errorEntry name])
        | some (.file _) =>
          match lookupChild pcs name with
          | some (.dir []) => (setChildrenAt t parent (eraseChild pcs name),
                               [.mergedDir name new_name])
          | some (.dir _) => (t, [.errorEntry name])
          | _ => (t, [.errorEntry name])
        | none =>
          -- lines 260-265: plain move inside try/except OSError
          match lookupChild pcs name with
          | some x =>
            (setChildrenAt t parent (eraseChild pcs name ++ [(new_name, x)]),
             [.renamedDir name new_name])
          | none => (t, [.errorDir name])
      | _ => (t, [.errorDir name])

/-- The wildcard phase of one directory: the `_WildcardSelector` of
`path.rglob('*')` materializes `list(scandir(parent))` once and then yields
each listed name while the loop body runs (and mutates the tree), so the name
list is fixed at phase start but every item is processed against the current
tree. -/
def processItemsAt (mode : Mode) (dry : Bool) (t : FSTree) (p : List String) :
    List String → FSTree × List LogEv
  | [] => (t, [])
  | n :: rest =>
    let (t', lg) := processItem mode dry t p n
    let (t'', lg2) := processItemsAt mode dry t' p rest
    (t'', lg ++ lg2)

mutual

/-- One starting point of the lazy `**` enumeration of `path.rglob('*')`
(CPython 3.8-3.12 `pathlib`): when a directory's turn comes, its listing is
scanned *then* — after any renames the loop body already performed — its
children are processed, and only afterwards is the directory rescanned for
subdirectories to recurse into, again seeing the post-rename names.  A
directory renamed while its own children were pending is therefore revisited
under the fresh name, never the stale one.  The fuel only bounds the
recursion for the termination checker; `rglobFuel` below always suffices
because entries are never created during a run.  (The implementation's
de-duplication set is not modelled: it only suppresses a path yielded twice,
which none of the runs stated below produce.) -/
def visitStart (mode : Mode) (dry : Bool) :
    Nat → FSTree → List String → FSTree × List LogEv
  | 0, t, _ => (t, [])
  | fuel + 1, t, p =>
    let names := (childrenAt t p).map (·.1)
    match processItemsAt mode dry t p names with
    | (t1, lg1) =>
      let subs := ((childrenAt t1 p).filter (fun e => !e.2.isFile)).map (·.1)
      match visitSubs mode dry fuel t1 p subs with
      | (t2, lg2) => (t2, lg1 ++ lg2)

/-- Depth-first recursion into the subdirectories found by the rescan, in
listing order. -/
def visitSubs (mode : Mode) (dry : Bool) :
    Nat → FSTree → List String → List String → FSTree × List LogEv
  | 0, t, _, _ => (t, [])
  | _ + 1, t, _, [] => (t, [])
  | fuel + 1, t, p, d :: rest =>
    match visitStart mode dry fuel t (p ++ [d]) with
    | (t1, lg1) =>
      match visitSubs mode dry fuel t1 p rest with
      | (t2, lg2) => (t2, lg1 ++ lg2)

end

/-- Fuel that always outlasts the glob recursion: every descent or sibling
step consumes at most one unit per entry ever reachable, and the rewriters
never create entries. -/
def rglobFuel (t : FSTree) : Nat := 3 * t.entryCount + 3

/-- The function `unifile.process_path(path, mode, dry_run)` — the one
`main()` actually calls: the `for item in path.rglob('*')` loop with the lazy
enumeration above.  Every item is handled inside `try/except Exception`, so
the loop itself never raises. -/
def process_path (t : FSTree) (mode : Mode) (dry : Bool) : RunRes :=
  match visitStart mode dry (rglobFuel t) t [] with
  | (t', lg) => .ok t' lg

end unifile
/-- A subtree that `unifileSrc.process_directory`'s walk finds nothing to
process in: a file (walk never descends into files) or an empty directory. -/
def FSTree.vacant : FSTree → Bool
  | .file _ => true
  | .dir cs => cs.isEmpty

/-- All children vacant. -/
def allVacant (cs : Children) : Bool := cs.all (fun e => e.2.vacant)

/-! Concrete names and example trees used by the claim theorems below. -/

def accTestName : String := "tést"
def plainTestName : String := "test"
def subName : String := "sub"
def fTxtName : String := "f.txt"
def xName : String := "x"
def zoedName : String := "zöd"
def zodName : String := "zod"
def baedName : String := "bäd.txt"
def baedClean : String := "baed.txt"
def muenchenDirName : String := "münchen"
def muenchenClean : String := "muenchen"
def cafeName : String := "café.txt"
def cafeClean : String := "cafe.txt"
def accTestTxt : String := "tést.txt"
def plainTestTxt : String := "test.txt"
def uberName : String := "über.txt"
def muenchenUmlName : String := "München.txt"
def eszettName : String := "ß"
def capEszettName : String := "ẞ"
def nulName : String := "\x00"
def twoRunsName : String := "\x00a\x00b"
def aTxtName : String := "a.txt"
def bogusMode : String := "flagrant"
def preserveStr : String := "preserve"
def asciiStr : String := "ascii"

/-- Two sibling directories that clean to the same name, each containing
`sub/f.txt` with distinct contents. -/
def mergeDepthTree : FSTree :=
  .dir [(accTestName, .dir [(subName, .dir [(fTxtName, .file 1)])]),
        (plainTestName, .dir [(subName, .dir [(fTxtName, .file 2)])])]

/-- A merge whose grandchild move collides inside an existing directory
(`tést/sub/x` onto `test/sub/x`, whose own child is again named `x`), with a
file before the merge and a renameable directory after it. -/
def mergeAbortTree : FSTree :=
  .dir [(baedName, .file 7),
        (accTestName, .dir [(subName, .dir [(xName, .dir [])])]),
        (plainTestName, .dir [(subName, .dir [(xName, .dir [(xName, .dir [])])])]),
        (zoedName, .dir [])]

/-- A directory needing cleaning with a file needing cleaning inside it. -/
def nestedUmlautTree : FSTree :=
  .dir [(muenchenDirName, .dir [(cafeName, .file 3)])]

def aUmlName : String := "ä"
def aCleanName : String := "ae"
def oUmlName : String := "ö"
def oCleanName : String := "oe"
def uUmlTxt : String := "ü.txt"
def uCleanTxt : String := "ue.txt"

/-- Two nested directories and a file, all needing cleaning. -/
def deepUmlautTree : FSTree :=
  .dir [(aUmlName, .dir [(oUmlName, .dir [(uUmlTxt, .file 9)])])]

/-- Two files whose names clean to the same name. -/
def twoFilesTree : FSTree :=
  .dir [(accTestTxt, .file 1), (plainTestTxt, .file 2)]

/-- A directory rename that fails (target exists and is nonempty) followed by
entries that still need processing. -/
def isolationTree : FSTree :=
  .dir [(accTestName, .dir [(fTxtName, .file 1)]),
        (plainTestName, .dir [(fTxtName, .file 2)]),
        (zoedName, .dir [])]

namespace unifile

theorem processFileEntry_dry (mode : Mode) (cs : Children) (n : String) :
    ∃ lg, processFileEntry mode true cs n = (cs, lg) := by
  simp only [processFileEntry]
  split
  · exact ⟨[], rfl⟩
  · exact ⟨_, rfl⟩

theorem processFiles_dry (mode : Mode) (names : List String) (cs : Children) :
    ∃ lg, processFiles mode true cs names = (cs, lg) := by
  induction names generalizing cs with
  | nil => exact ⟨[], rfl⟩
  | cons n rest ih =>
    obtain ⟨lg1, h1⟩ := processFileEntry_dry mode cs n
    obtain ⟨lg2, h2⟩ := ih cs
    exact ⟨lg1 ++ lg2, by simp only [processFiles, h1, h2]⟩

theorem processDirEntry_dry (mode : Mode) (cs : Children) (n : String) :
    ∃ lg, processDirEntry mode true cs n = (cs, lg, none) := by
  simp only [processDirEntry]
  split
  · exact ⟨[], rfl⟩
  · exact ⟨_, rfl⟩

theorem processDirs_dry (mode : Mode) (names : List String) (cs : Children) :
    ∃ lg, processDirs mode true cs names = (cs, lg, none) := by
  induction names generalizing cs with
  | nil => exact ⟨[], rfl⟩
  | cons n rest ih =>
    obtain ⟨lg1, h1⟩ := processDirEntry_dry mode cs n
    obtain ⟨lg2, h2⟩ := ih cs
    exact ⟨lg1 ++ lg2, by simp only [processDirs, h1, h2]⟩

end unifile

mutual

theorem unifile_processTree_dry (mode : Mode) (t : FSTree) :
    ∃ lg, unifile.processTree mode true t = (t, lg, none) := by
  match t with
  | .file d => exact ⟨[], rfl⟩
  | .dir cs =>
    obtain ⟨lg1, h1⟩ := unifile_processChildren_dry mode cs
    obtain ⟨lg2, h2⟩ := unifile.processFiles_dry mode
      ((cs.filter (fun c => c.2.isFile)).map (·.1)) cs
    obtain ⟨lg3, h3⟩ := unifile.processDirs_dry mode
      ((cs.filter (fun c => !c.2.isFile)).map (·.1)) cs
    exact ⟨lg1 ++ lg2 ++ lg3, by
      simp only [unifile.processTree, h1, h2, h3]⟩
termination_by sizeOf t

theorem unifile_processChildren_dry (mode : Mode) (cs : Children) :
    ∃ lg, unifile.processChildren mode true cs = (cs, lg, none) := by
  match cs with
  | [] => exact ⟨[], rfl⟩
  | (n, t) :: rest =>
    obtain ⟨lg1, h1⟩ := unifile_processTree_dry mode t
    obtain ⟨lg2, h2⟩ := unifile_processChildren_dry mode rest
    exact ⟨lg1 ++ lg2, by simp only [unifile.processChildren, h1, h2]⟩
termination_by sizeOf cs

end

namespace utf8fix

theorem dirEntry_dry (mode : String) (cs : Children) (n : String) :
    ∃ lg, processDirEntry mode true cs n = (cs, lg) := by
  simp only [processDirEntry]
  split
  · exact ⟨[], rfl⟩
  · exact ⟨_, rfl⟩

theorem fileEntry_dry (mode : String) (cs : Children) (n : String) :
    ∃ lg, processFileEntry mode true cs n = (cs, lg) := by
  simp only [processFileEntry]
  split
  · exact ⟨[], rfl⟩
  · exact ⟨_, rfl⟩

theorem dirsLoop_dry (mode : String) (names : List String) (cs : Children) :
    ∃ lg, dirsLoop mode true cs names = (cs, lg) := by
  induction names generalizing cs with
  | nil => exact ⟨[], rfl⟩
  | cons n rest ih =>
    obtain ⟨lg1, h1⟩ := dirEntry_dry mode cs n
    obtain ⟨lg2, h2⟩ := ih cs
    exact ⟨lg1 ++ lg2, by simp only [dirsLoop, h1, h2]⟩

theorem filesLoop_dry (mode : String) (names : List String) (cs : Children) :
    ∃ lg, filesLoop mode true cs names = (cs, lg) := by
  induction names generalizing cs with
  | nil => exact ⟨[], rfl⟩
  | cons n rest ih =>
    obtain ⟨lg1, h1⟩ := fileEntry_dry mode cs n
    obtain ⟨lg2, h2⟩ := ih cs
    exact ⟨lg1 ++ lg2, by simp only [filesLoop, h1, h2]⟩

end utf8fix

mutual

theorem utf8fix_dirsPassTree_dry (mode : String) (t : FSTree) :
    ∃ lg, utf8fix.dirsPassTree mode true t = (t, lg) := by
  match t with
  | .file d => exact ⟨[], rfl⟩
  | .dir cs =>
    obtain ⟨lg1, h1⟩ := utf8fix_dirsPassChildren_dry mode cs
    obtain ⟨lg2, h2⟩ := utf8fix.dirsLoop_dry mode
      ((cs.filter (fun c => !c.2.isFile)).map (·.1)) cs
    exact ⟨lg1 ++ lg2, by simp only [utf8fix.dirsPassTree, h1, h2]⟩
termination_by sizeOf t

theorem utf8fix_dirsPassChildren_dry (mode : String) (cs : Children) :
    ∃ lg, utf8fix.dirsPassChildren mode true cs = (cs, lg) := by
  match cs with
  | [] => exact ⟨[], rfl⟩
  | (n, t) :: rest =>
    obtain ⟨lg1, h1⟩ := utf8fix_dirsPassTree_dry mode t
    obtain ⟨lg2, h2⟩ := utf8fix_dirsPassChildren_dry mode rest
    exact ⟨lg1 ++ lg2, by simp only [utf8fix.dirsPassChildren, h1, h2]⟩
termination_by sizeOf cs

end

mutual

theorem utf8fix_filesPassTree_dry (mode : String) (t : FSTree) :
    ∃ lg, utf8fix.filesPassTree mode true t = (t, lg) := by
  match t with
  | .file d => exact ⟨[], rfl⟩
  | .dir cs =>
    obtain ⟨lg1, h1⟩ := utf8fix_filesPassChildren_dry mode cs
    obtain ⟨lg2, h2⟩ := utf8fix.filesLoop_dry mode
      ((cs.filter (fun c => c.2.isFile)).map (·.1)) cs
    exact ⟨lg2 ++ lg1, by simp only [utf8fix.filesPassTree, h1, h2]⟩
termination_by sizeOf t

theorem utf8fix_filesPassChildren_dry (mode : String) (cs : Children) :
    ∃ lg, utf8fix.filesPassChildren mode true cs = (cs, lg) := by
  match cs with
  | [] => exact ⟨[], rfl⟩
  | (n, t) :: rest =>
    obtain ⟨lg1, h1⟩ := utf8fix_filesPassTree_dry mode t
    obtain ⟨lg2, h2⟩ := utf8fix_filesPassChildren_dry mode rest
    exact ⟨lg1 ++ lg2, by simp only [utf8fix.filesPassChildren, h1, h2]⟩
termination_by sizeOf cs

end

theorem unifile_processItem_dry (mode : Mode) (t : FSTree) (p : List String) (n : String) :
    ∃ lg, unifile.processItem mode true t p n = (t, lg) := by
  simp only [unifile.processItem]
  split
  · exact ⟨[], rfl⟩
  · split
    · split
      · exact ⟨_, rfl⟩
      · exact ⟨_, rfl⟩
    · next h => exact absurd trivial h

theorem unifile_processItemsAt_dry (mode : Mode) (p : List String)
    (names : List String) (t : FSTree) :
    ∃ lg, unifile.processItemsAt mode true t p names = (t, lg) := by
  induction names generalizing t with
  | nil => exact ⟨[], rfl⟩
  | cons n rest ih =>
    obtain ⟨lg1, h1⟩ := unifile_processItem_dry mode t p n
    obtain ⟨lg2, h2⟩ := ih t
    exact ⟨lg1 ++ lg2, by simp only [unifile.processItemsAt, h1, h2]⟩

mutual

theorem unifile_visitStart_dry (mode : Mode) (fuel : Nat) (t : FSTree)
    (p : List String) :
    ∃ lg, unifile.visitStart mode true fuel t p = (t, lg) := by
  match fuel with
  | 0 => exact ⟨[], rfl⟩
  | fuel + 1 =>
    obtain ⟨lg1, h1⟩ :=
      unifile_processItemsAt_dry mode p ((childrenAt t p).map (·.1)) t
    obtain ⟨lg2, h2⟩ := unifile_visitSubs_dry mode fuel t p
      (((childrenAt t p).filter (fun e => !e.2.isFile)).map (·.1))
    exact ⟨lg1 ++ lg2, by simp only [unifile.visitStart, h1, h2]⟩
termination_by (fuel, 0)

theorem unifile_visitSubs_dry (mode : Mode) (fuel : Nat) (t : FSTree)
    (p : List String) (subs : List String) :
    ∃ lg, unifile.visitSubs mode true fuel t p subs = (t, lg) := by
  match fuel, subs with
  | 0, _ => exact ⟨[], rfl⟩
  | _ + 1, [] => exact ⟨[], rfl⟩
  | fuel + 1, d :: rest =>
    obtain ⟨lg1, h1⟩ := unifile_visitStart_dry mode fuel t (p ++ [d])
    obtain ⟨lg2, h2⟩ := unifile_visitSubs_dry mode fuel t p rest
    exact ⟨lg1 ++ lg2, by simp only [unifile.visitSubs, h1, h2]⟩
termination_by (fuel, 1)

end

theorem nfkdChar_of_ascii (c : Char) (h : c.toNat < 128) : nfkdChar c = [c] := by
  unfold nfkdChar
  split_ifs with h1 h2 h3 h4 h5 h6 h7 h8 h9 <;>
    first
    | rfl
    | (subst_vars; exact absurd h (by decide))

theorem nfkdChar_noControl (c : Char) (h : isControlChar c = false) :
    ∀ d ∈ nfkdChar c, isControlChar d = false := by
  intro d hd
  unfold nfkdChar at hd
  split_ifs at hd <;> fin_cases hd <;> first | decide | exact h

theorem mem_replaceChar (p : Char) (r l : List Char) (d : Char)
    (hd : d ∈ replaceChar p r l) : d ∈ r ∨ d ∈ l := by
  induction l with
  | nil => cases hd
  | cons c cs ih =>
    simp only [replaceChar, List.mem_append] at hd
    rcases hd with h | h
    · split at h
      · exact Or.inl h
      · simp only [List.mem_singleton] at h
        exact Or.inr (by simp [h])
    · rcases ih h with h | h
      · exact Or.inl h
      · exact Or.inr (List.mem_cons_of_mem _ h)

theorem replaceChar_of_not_mem (p : Char) (r l : List Char) (h : p ∉ l) :
    replaceChar p r l = l := by
  induction l with
  | nil => rfl
  | cons c cs ih =>
    simp only [List.mem_cons, not_or] at h
    have hcp : ¬ c = p := fun hc => h.1 hc.symm
    simp only [replaceChar, if_neg hcp, ih h.2, List.singleton_append]

theorem foldl_replace_noControl (table : List (Char × List Char)) (l : List Char)
    (hrep : ∀ e ∈ table, ∀ d ∈ e.2, isControlChar d = false)
    (hl : ∀ d ∈ l, isControlChar d = false) :
    ∀ d ∈ table.foldl (fun acc pr => replaceChar pr.1 pr.2 acc) l, isControlChar d = false := by
  induction table generalizing l with
  | nil => exact hl
  | cons e rest ih =>
    refine ih _ (fun e' he' => hrep e' (List.mem_cons_of_mem _ he')) ?_
    intro d hd
    rcases mem_replaceChar e.1 e.2 l d hd with h | h
    · exact hrep e (List.mem_cons_self _ _) d h
    · exact hl d h

theorem foldl_replace_id_of_ascii (table : List (Char × List Char)) (l : List Char)
    (hpat : ∀ e ∈ table, 128 ≤ e.1.toNat)
    (hl : ∀ d ∈ l, d.toNat < 128) :
    table.foldl (fun acc pr => replaceChar pr.1 pr.2 acc) l = l := by
  induction table with
  | nil => rfl
  | cons e rest ih =>
    have h1 : e.1 ∉ l := fun hm => by
      have := hl _ hm
      have := hpat e (List.mem_cons_self _ _)
      omega
    simp only [List.foldl_cons, replaceChar_of_not_mem _ _ _ h1]
    exact ih (fun e' he' => hpat e' (List.mem_cons_of_mem _ he'))

theorem applyUmlautMap_noControl (l : List Char)
    (hl : ∀ d ∈ l, isControlChar d = false) :
    ∀ d ∈ applyUmlautMap l, isControlChar d = false := by
  refine foldl_replace_noControl UMLAUT_MAP l ?_ hl
  intro e he d hd
  fin_cases he <;> fin_cases hd <;> decide

theorem applyUmlautMap_id_of_ascii (l : List Char) (hl : ∀ d ∈ l, d.toNat < 128) :
    applyUmlautMap l = l := by
  refine foldl_replace_id_of_ascii UMLAUT_MAP l ?_ hl
  intro e he
  fin_cases he <;> decide

theorem nfkdStr_id_of_ascii (l : List Char) (hl : ∀ d ∈ l, d.toNat < 128) :
    nfkdStr l = l := by
  induction l with
  | nil => rfl
  | cons c cs ih =>
    simp only [nfkdStr, List.map_cons, List.flatten_cons] at *
    rw [nfkdChar_of_ascii c (hl c (List.mem_cons_self _ _)),
      ih (fun d hd => hl d (List.mem_cons_of_mem _ hd))]
    rfl

theorem nfkdStr_noControl (l : List Char) (hl : ∀ d ∈ l, isControlChar d = false) :
    ∀ d ∈ nfkdStr l, isControlChar d = false := by
  intro d hd
  simp only [nfkdStr, List.mem_flatten, List.mem_map] at hd
  obtain ⟨ds, ⟨c, hc, rfl⟩, hdin⟩ := hd
  exact nfkdChar_noControl c (hl c hc) d hdin

theorem lastControlSegment_noControl (l : List Char) :
    ∀ d ∈ lastControlSegment l, isControlChar d = false := by
  intro d hd
  simp only [lastControlSegment, List.mem_reverse] at hd
  have := List.mem_takeWhile_imp hd
  simpa using this

theorem splitext_snd_subset (l : List Char) : (splitext l).2 ⊆ l := by
  unfold splitext
  split
  · exact fun x hx => by simp at hx
  · split
    · exact List.drop_subset _ _
    · exact fun x hx => by simp at hx

theorem collapseControl_noControl (l : List Char) :
    ∀ d ∈ collapseControl l, isControlChar d = false := by
  intro d hd
  unfold collapseControl at hd
  by_cases h1 : l.any isControlChar
  · rw [if_pos h1] at hd
    by_cases h2 : (lastControlSegment l).isEmpty
    · rw [if_pos h2] at hd
      cases hd
    · rw [if_neg h2] at hd
      rcases List.mem_append.mp hd with h | h
      · fin_cases h <;> decide
      · exact lastControlSegment_noControl l d (splitext_snd_subset _ h)
  · rw [if_neg h1] at hd
    have h2 := List.any_eq_false.mp (by simpa using h1) d hd
    simpa using h2

theorem isCombining_false_of_ascii (c : Char) (h : c.toNat < 128) :
    isCombining c = false := by
  simp only [isCombining, Bool.and_eq_false_eq_eq_false_or_eq_false, decide_eq_false_iff_not]
  omega

theorem collapseControl_of_noControl (l : List Char)
    (h : ∀ d ∈ l, isControlChar d = false) : collapseControl l = l := by
  have hany : l.any isControlChar = false :=
    List.any_eq_false.mpr (fun d hd => by simp [h d hd])
  simp [collapseControl, hany]

theorem clean_chars_idem (l : List Char) (m : Mode) :
    unifile.clean_chars (unifile.clean_chars l m) m = unifile.clean_chars l m := by
  cases m with
  | preserve =>
    show collapseControl (collapseControl l) = collapseControl l
    exact collapseControl_of_noControl _ (collapseControl_noControl l)
  | ascii =>
    have hlt : ∀ d ∈ unifile.clean_chars l .ascii, d.toNat < 128 := by
      intro d hd
      simp only [unifile.clean_chars, List.mem_filter, decide_eq_true_eq] at hd
      exact hd.2
    have hnc : ∀ d ∈ unifile.clean_chars l .ascii, isControlChar d = false := by
      intro d hd
      simp only [unifile.clean_chars, List.mem_filter] at hd
      exact nfkdStr_noControl _
        (applyUmlautMap_noControl _ (collapseControl_noControl l)) d hd.1.1
    have h1 := collapseControl_of_noControl _ hnc
    have h2 := applyUmlautMap_id_of_ascii _ hlt
    have h3 := nfkdStr_id_of_ascii _ hlt
    have h4 : (unifile.clean_chars l .ascii).filter (fun c => !isCombining c)
        = unifile.clean_chars l .ascii := by
      refine List.filter_eq_self.mpr ?_
      intro d hd
      simp [isCombining_false_of_ascii d (hlt d hd)]
    have h5 : (unifile.clean_chars l .ascii).filter (fun c => decide (c.toNat < 128))
        = unifile.clean_chars l .ascii := by
      refine List.filter_eq_self.mpr ?_
      intro d hd
      simp [hlt d hd]
    conv_lhs => rw [unifile.clean_chars]
    rw [h1, h2, h3, h4, h5]

theorem digitChar_inj : ∀ a < 10, ∀ b < 10, digitChar a = digitChar b → a = b := by
  decide

theorem natChars_length_pos (n : Nat) : 0 < (natChars n).length := by
  rw [natChars]
  split_ifs <;> simp

theorem natChars_lt10 (n : Nat) (h : n < 10) : natChars n = [digitChar n] := by
  rw [natChars]
  exact dif_pos h

theorem natChars_ge10 (n : Nat) (h : ¬ n < 10) :
    natChars n = natChars (n / 10) ++ [digitChar (n % 10)] := by
  rw [natChars]
  exact dif_neg h

theorem natChars_inj (a : Nat) : ∀ b, natChars a = natChars b → a = b := by
  induction a using Nat.strong_induction_on with
  | _ a ih =>
    intro b h
    by_cases ha : a < 10 <;> by_cases hb : b < 10
    · rw [natChars_lt10 a ha, natChars_lt10 b hb] at h
      exact digitChar_inj a ha b hb (List.singleton_inj.mp h)
    · exfalso
      rw [natChars_lt10 a ha, natChars_ge10 b hb] at h
      have hlen := congrArg List.length h
      have := natChars_length_pos (b / 10)
      simp only [List.length_singleton, List.length_append] at hlen
      omega
    · exfalso
      rw [natChars_ge10 a ha, natChars_lt10 b hb] at h
      have hlen := congrArg List.length h
      have := natChars_length_pos (a / 10)
      simp only [List.length_singleton, List.length_append] at hlen
      omega
    · rw [natChars_ge10 a ha, natChars_ge10 b hb] at h
      obtain ⟨h1, h2⟩ := List.append_inj' h rfl
      have e1 : a / 10 = b / 10 :=
        ih (a / 10) (Nat.div_lt_self (by omega) (by omega)) _ h1
      have e2 : a % 10 = b % 10 :=
        digitChar_inj _ (Nat.mod_lt _ (by omega)) _ (Nat.mod_lt _ (by omega))
          (List.singleton_inj.mp h2)
      omega

theorem mkCand_inj (base ext : List Char) (i j : Nat)
    (h : mkCand base ext i = mkCand base ext j) : i = j := by
  unfold mkCand at h
  have h2 := congrArg String.data h
  simp only [] at h2
  have h3 := List.append_cancel_left h2
  have h4 : natChars i ++ ext = natChars j ++ ext := by
    injection h3
  exact natChars_inj i j (List.append_cancel_right h4)

theorem hasChild_true_mem (cs : Children) (n : String) (h : hasChild cs n = true) :
    n ∈ cs.map (·.1) := by
  simp only [hasChild, List.any_eq_true] at h
  obtain ⟨e, he, hq⟩ := h
  simp only [beq_iff_eq] at hq
  exact hq ▸ List.mem_map_of_mem _ he

theorem exists_free_cand (cs : Children) (base ext : List Char) :
    ∃ j, j < cs.length + 1 ∧ hasChild cs (mkCand base ext (1 + j)) = false := by
  by_contra hcon
  push_neg at hcon
  have hmem : ∀ j < cs.length + 1, mkCand base ext (1 + j) ∈ cs.map (·.1) := by
    intro j hj
    have h := hcon j hj
    exact hasChild_true_mem cs _ (by
      cases hv : hasChild cs (mkCand base ext (1 + j))
      · exact absurd hv h
      · rfl)
  have hnodup : ((List.range (cs.length + 1)).map
      (fun j => mkCand base ext (1 + j))).Nodup := by
    refine List.Nodup.map ?_ (List.nodup_range _)
    intro x y hxy
    have := mkCand_inj base ext (1 + x) (1 + y) hxy
    omega
  have hsub : ((List.range (cs.length + 1)).map (fun j => mkCand base ext (1 + j)))
      ⊆ cs.map (·.1) := by
    intro c hc
    simp only [List.mem_map, List.mem_range] at hc
    obtain ⟨j, hj, rfl⟩ := hc
    exact hmem j hj
  have hle := (List.subperm_of_subset hnodup hsub).length_le
  simp only [List.length_map, List.length_range] at hle
  omega

theorem searchFrom_free (cs : Children) (base ext : List Char) :
    ∀ fuel start,
      (∃ j, j < fuel ∧ hasChild cs (mkCand base ext (start + j)) = false) →
      hasChild cs (searchFrom cs base ext start fuel) = false := by
  intro fuel
  induction fuel with
  | zero =>
    rintro start ⟨j, hj, _⟩
    omega
  | succ f ih =>
    rintro start ⟨j, hj, hfree⟩
    rw [searchFrom]
    by_cases hc : hasChild cs (mkCand base ext start)
    · simp only [hc, if_true]
      refine ih (start + 1) ⟨j - 1, ?_, ?_⟩
      · rcases Nat.eq_zero_or_pos j with rfl | hjpos
        · rw [Nat.add_zero] at hfree
          rw [hfree] at hc
          cases hc
        · omega
      · rcases Nat.eq_zero_or_pos j with rfl | hjpos
        · rw [Nat.add_zero] at hfree
          rw [hfree] at hc
          cases hc
        · have : start + 1 + (j - 1) = start + j := by omega
          rw [this]
          exact hfree
    · simp only [hc, if_false]
      simpa using hc

theorem searchFrom_min (cs : Children) (base ext : List Char) :
    ∀ fuel start, ∃ n, searchFrom cs base ext start fuel = mkCand base ext n ∧
      start ≤ n ∧ ∀ m, start ≤ m → m < n → hasChild cs (mkCand base ext m) = true := by
  intro fuel
  induction fuel with
  | zero =>
    intro start
    exact ⟨start, rfl, Nat.le_refl _, fun m h1 h2 => absurd h2 (by omega)⟩
  | succ f ih =>
    intro start
    rw [searchFrom]
    by_cases hc : hasChild cs (mkCand base ext start)
    · obtain ⟨n, he, hn, hmin⟩ := ih (start + 1)
      simp only [hc, if_true]
      refine ⟨n, he, by omega, fun m hm1 hm2 => ?_⟩
      rcases Nat.eq_or_lt_of_le hm1 with rfl | hlt
      · exact hc
      · exact hmin m (by omega) hm2
    · simp only [hc, if_false]
      exact ⟨start, rfl, Nat.le_refl _, fun m h1 h2 => absurd h2 (by omega)⟩

theorem findFreeTarget_free (cs : Children) (new_name : String) :
    hasChild cs (findFreeTarget cs new_name) = false := by
  unfold findFreeTarget
  by_cases hc : hasChild cs new_name
  · simp only [hc, if_true]
    obtain ⟨j, hj, hfree⟩ := exists_free_cand cs (splitext new_name.data).1
      (splitext new_name.data).2
    exact searchFrom_free cs _ _ (cs.length + 1) 1 ⟨j, by omega, hfree⟩
  · simp only [hc, if_false]
    simpa using hc

theorem childDatas_append (l1 l2 : Children) :
    childDatas (l1 ++ l2) = childDatas l1 ++ childDatas l2 := by
  induction l1 with
  | nil => rfl
  | cons e rest ih =>
    obtain ⟨n, t⟩ := e
    simp only [List.cons_append, childDatas, List.append_eq, ih, List.append_assoc]

theorem find?_middle {α : Type} (p : α → Bool) (l₁ : List α) (a : α) (l₂ : List α)
    (hnp : ∀ b ∈ l₁, ¬ p b = true) (hpa : p a = true) :
    List.find? p (l₁ ++ a :: l₂) = some a := by
  induction l₁ with
  | nil => simp [List.find?, hpa]
  | cons c cl ih =>
    have hc := hnp c (List.mem_cons_self _ _)
    simp only [List.cons_append, List.find?]
    rw [Bool.not_eq_true] at hc
    rw [hc]
    simp only [Bool.false_eq_true, if_false]
    exact ih (fun b hb => hnp b (List.mem_cons_of_mem _ hb))

theorem lookupChild_eq_none (cs : Children) (n : String) (h : hasChild cs n = false) :
    lookupChild cs n = none := by
  simp only [lookupChild, Option.map_eq_none']
  refine List.find?_eq_none.mpr ?_
  intro e he
  simp only [hasChild, List.any_eq_false] at h
  exact h e he

theorem datas_erase_perm (cs : Children) (n : String) (t : FSTree)
    (h : lookupChild cs n = some t) :
    (FSTree.dir cs).datas.Perm (t.datas ++ (FSTree.dir (eraseChild cs n)).datas) := by
  simp only [lookupChild, Option.map_eq_some'] at h
  obtain ⟨e0, hfind, ht⟩ := h
  have hmem := List.mem_of_find?_eq_some hfind
  have hp := List.find?_some hfind
  obtain ⟨a', l₁, l₂, hnp, hpa, hcs, herase⟩ :=
    @List.exists_of_eraseP _ (fun e => e.1 == n) _ _ hmem hp
  have he0 : e0 = a' := by
    rw [hcs] at hfind
    rw [find?_middle _ l₁ a' l₂ hnp hpa] at hfind
    exact (Option.some_inj.mp hfind).symm
  subst he0
  subst ht
  simp only [eraseChild, FSTree.datas]
  rw [herase, hcs, childDatas_append, childDatas_append]
  have h1 : childDatas (e0 :: l₂) = e0.2.datas ++ childDatas l₂ := by
    obtain ⟨x, y⟩ := e0
    rfl
  rw [h1, ← List.append_assoc, ← List.append_assoc]
  exact List.Perm.append_right _ (List.perm_append_comm)

theorem processFileEntry_datas (mode : Mode) (cs : Children) (name : String) :
    (FSTree.dir (unifile.processFileEntry mode false cs name).1).datas.Perm
      (FSTree.dir cs).datas := by
  unfold unifile.processFileEntry
  by_cases hn : unifile.clean_filename_core name mode = name
  · rw [if_pos hn]
  · rw [if_neg hn]
    simp only [Bool.false_eq_true, if_false]
    cases hl : lookupChild cs name with
    | none =>
      have : osRename cs name (findFreeTarget cs
          (unifile.clean_filename_core name mode)) = .error .osError := by
        unfold osRename
        rw [hl]
      rw [this]
    | some t =>
      have hfree := findFreeTarget_free cs (unifile.clean_filename_core name mode)
      have hnone := lookupChild_eq_none cs _ hfree
      have hok : osRename cs name (findFreeTarget cs
          (unifile.clean_filename_core name mode))
          = .ok (eraseChild cs name ++
              [(findFreeTarget cs (unifile.clean_filename_core name mode), t)]) := by
        unfold osRename
        rw [hl, hnone]
      rw [hok]
      simp only [FSTree.datas, childDatas_append]
      have h1 : childDatas [(findFreeTarget cs
          (unifile.clean_filename_core name mode), t)] = t.datas := by
        simp [childDatas]
      rw [h1]
      have hperm := datas_erase_perm cs name t hl
      simp only [FSTree.datas] at hperm
      exact (hperm.trans List.perm_append_comm).symm

theorem unifileSrc_processFileEntry_eq (mode : PyVal) (dry : Bool) (cs : Children)
    (n : String) :
    unifileSrc.processFileEntry mode dry cs n = (cs, [], some .typeError) := rfl

theorem unifileSrc_processDirEntry_eq (mode : PyVal) (dry : Bool) (cs : Children)
    (n : String) :
    unifileSrc.processDirEntry mode dry cs n = (cs, [], some .typeError) := rfl

theorem unifileSrc_filesLoop_eq (mode : PyVal) (dry : Bool) (cs : Children) :
    ∀ names, names ≠ [] →
      unifileSrc.filesLoop mode dry cs names = (cs, [], some .typeError)
  | [], h => absurd rfl h
  | n :: rest, _ => by
    rw [unifileSrc.filesLoop, unifileSrc_processFileEntry_eq]

theorem unifileSrc_dirsLoop_eq (mode : PyVal) (dry : Bool) (cs : Children) :
    ∀ names, names ≠ [] →
      unifileSrc.dirsLoop mode dry cs names = (cs, [], some .typeError)
  | [], h => absurd rfl h
  | n :: rest, _ => by
    rw [unifileSrc.dirsLoop, unifileSrc_processDirEntry_eq]

theorem names_cover (cs : Children) (h : cs ≠ []) :
    (cs.filter (fun c => c.2.isFile)).map (·.1) ≠ [] ∨
    (cs.filter (fun c => !c.2.isFile)).map (·.1) ≠ [] := by
  match cs with
  | e :: rest =>
    cases hf : e.2.isFile
    · right
      simp [List.filter_cons, hf]
    · left
      simp [List.filter_cons, hf]

mutual

theorem unifileSrc_processTree_spec (mode : PyVal) (dry : Bool) (t : FSTree) :
    unifileSrc.processTree mode dry t
      = (t, [], if t.vacant then none else some PyError.typeError) := by
  match t with
  | .file d => rfl
  | .dir cs =>
    have hch := unifileSrc_processChildren_spec mode dry cs
    by_cases hv : allVacant cs
    · rw [unifileSrc.processTree, hch, if_pos hv]
      dsimp only
      by_cases hcs : cs = []
      · subst hcs
        simp [FSTree.vacant, unifileSrc.filesLoop, unifileSrc.dirsLoop]
      · have hvac : FSTree.vacant (.dir cs) = false := by
          simp only [FSTree.vacant, List.isEmpty_eq_true]
          simpa using hcs
        rw [hvac]
        rcases names_cover cs hcs with hne | hne
        · rw [unifileSrc_filesLoop_eq mode dry cs _ hne]
          dsimp only
          simp
        · by_cases hfe : (cs.filter (fun c => c.2.isFile)).map (·.1) = []
          · rw [hfe]
            rw [show unifileSrc.filesLoop mode dry cs [] = (cs, [], none) from rfl]
            dsimp only
            rw [unifileSrc_dirsLoop_eq mode dry cs _ hne]
            simp
          · rw [unifileSrc_filesLoop_eq mode dry cs _ hfe]
            dsimp only
            simp
    · rw [unifileSrc.processTree, hch, if_neg hv]
      dsimp only
      have hne2 : cs ≠ [] := fun hnil => hv (by simp [allVacant, hnil])
      have hvac : FSTree.vacant (.dir cs) = false := by
        simp only [FSTree.vacant, List.isEmpty_eq_true]
        simpa using hne2
      rw [hvac]
      simp
termination_by sizeOf t

theorem unifileSrc_processChildren_spec (mode : PyVal) (dry : Bool) (cs : Children) :
    unifileSrc.processChildren mode dry cs
      = (cs, [], if allVacant cs then none else some PyError.typeError) := by
  match cs with
  | [] => rfl
  | (n, t) :: rest =>
    have ht := unifileSrc_processTree_spec mode dry t
    have hrest := unifileSrc_processChildren_spec mode dry rest
    have hcons : allVacant ((n, t) :: rest) = (t.vacant && allVacant rest) := by
      simp [allVacant]
    by_cases hv : t.vacant
    · rw [unifileSrc.processChildren, ht, if_pos hv]
      dsimp only
      rw [hrest]
      by_cases hr : allVacant rest
      · rw [if_pos hr]
        dsimp only
        rw [hcons, hv, hr]
        simp
      · rw [if_neg hr]
        dsimp only
        rw [hcons, hv]
        rw [Bool.not_eq_true] at hr
        rw [hr]
        simp
    · rw [unifileSrc.processChildren, ht, if_neg hv]
      dsimp only
      rw [hcons]
      rw [Bool.not_eq_true] at hv
      rw [hv]
      simp
termination_by sizeOf cs

end

/-! The claims. -/

/-- C1 (corrected, counterexample): the claim quantifies over every tree
rewriter of the repository, but `utf8fix.process_directory` renames files with
no collision handling at all: on two files cleaning to the same name, the
rename silently replaces the target, and one file's contents vanish — no
`-1` suffix is ever tried. -/
theorem utf8fix_file_rename_clobbers :
    utf8fix.process_directory twoFilesTree asciiStr false
      = .ok (.dir [(plainTestTxt, .file 1)]) [.renamedFile accTestTxt plainTestTxt] ∧
    twoFilesTree.datas = [1, 2] ∧
    (utf8fix.process_directory twoFilesTree asciiStr false).fs.datas = [1] :=
  ⟨rfl, rfl, rfl⟩

/-- C1 (amended): in the `unifile` variant's `process_directory`, the target
a file rename actually uses is never an existing entry: when the cleaned name
collides, the suffix loop returns `f"{base}-{n}{ext}"` for the smallest
`n ≥ 1` that is free; consequently one file-loop step never loses or
duplicates any entry's contents (their multiset is preserved). -/
theorem unifile_file_rename_no_clobber :
    (∀ (cs : Children) (new_name : String), hasChild cs new_name = true →
      hasChild cs (findFreeTarget cs new_name) = false ∧
      ∃ n, 1 ≤ n ∧
        findFreeTarget cs new_name
          = mkCand (splitext new_name.data).1 (splitext new_name.data).2 n ∧
        ∀ m, 1 ≤ m → m < n →
          hasChild cs
            (mkCand (splitext new_name.data).1 (splitext new_name.data).2 m) = true) ∧
    (∀ (mode : Mode) (cs : Children) (name : String),
      (FSTree.dir (unifile.processFileEntry mode false cs name).1).datas.Perm
        (FSTree.dir cs).datas) := by
  constructor
  · intro cs new_name hcol
    refine ⟨findFreeTarget_free cs new_name, ?_⟩
    have hft : findFreeTarget cs new_name
        = searchFrom cs (splitext new_name.data).1 (splitext new_name.data).2 1
            (cs.length + 1) := by
      unfold findFreeTarget
      rw [if_pos hcol]
    obtain ⟨n, he, hn, hmin⟩ :=
      searchFrom_min cs (splitext new_name.data).1 (splitext new_name.data).2
        (cs.length + 1) 1
    exact ⟨n, hn, hft.trans he, hmin⟩
  · exact processFileEntry_datas

/-- Witness for C1's amended theorem at a concrete collision. -/
theorem unifile_file_rename_no_clobber_witness :
    hasChild [(plainTestTxt, FSTree.file 2)] plainTestTxt = true ∧
    (hasChild [(plainTestTxt, FSTree.file 2)]
        (findFreeTarget [(plainTestTxt, FSTree.file 2)] plainTestTxt) = false ∧
      ∃ n, 1 ≤ n ∧
        findFreeTarget [(plainTestTxt, FSTree.file 2)] plainTestTxt
          = mkCand (splitext plainTestTxt.data).1 (splitext plainTestTxt.data).2 n ∧
        ∀ m, 1 ≤ m → m < n →
          hasChild [(plainTestTxt, FSTree.file 2)]
            (mkCand (splitext plainTestTxt.data).1
              (splitext plainTestTxt.data).2 m) = true) ∧
    (FSTree.dir (unifile.processFileEntry .ascii false
        [(accTestTxt, .file 1), (plainTestTxt, .file 2)] accTestTxt).1).datas.Perm
      (FSTree.dir [(accTestTxt, FSTree.file 1), (plainTestTxt, FSTree.file 2)]).datas :=
  ⟨rfl,
   unifile_file_rename_no_clobber.1 [(plainTestTxt, FSTree.file 2)] plainTestTxt rfl,
   unifile_file_rename_no_clobber.2 .ascii
     [(accTestTxt, FSTree.file 1), (plainTestTxt, FSTree.file 2)] accTestTxt⟩

/-- C2 (code_bug): the merge is advertised (spec and inline comment) as
recursive with collision handling at every depth, but the sub-directory
branch moves grandchildren with a bare `shutil.move` and no collision check:
merging `tést` into `test` when both contain `sub/f.txt` silently overwrites
`test/sub/f.txt`, losing its contents (data 2 is gone from the result). -/
theorem unifile_merge_depth2_overwrites :
    unifile.process_directory mergeDepthTree .ascii false
      = .ok (.dir [(plainTestName, .dir [(subName, .dir [(fTxtName, .file 1)])])])
          [.mergedDir accTestName plainTestName] ∧
    mergeDepthTree.datas = [1, 2] ∧
    (unifile.process_directory mergeDepthTree .ascii false).fs.datas = [1] :=
  ⟨rfl, rfl, rfl⟩

/-- C3 (corrected, counterexample): `utf8fix.clean_filename` replaces only the
first control run (`count=1`), so a name with two control runs is not a fixed
point of one application: cleaning "\x00a\x00b" once gives "withNulla\x00b",
cleaning it again changes it further. -/
theorem utf8fix_clean_filename_not_idempotent :
    utf8fix.clean_filename_core
        (utf8fix.clean_filename_core twoRunsName preserveStr) preserveStr
      ≠ utf8fix.clean_filename_core twoRunsName preserveStr := by
  decide

/-- C3 (amended): the `unifile` variant's `clean_filename` is idempotent in
both modes: its control collapse leaves no control characters, and its ascii
pipeline output is pure ASCII on which the umlaut table, NFKD and both
filters are the identity. -/
theorem unifile_clean_filename_idempotent (s : String) (m : Mode) :
    unifile.clean_filename_core (unifile.clean_filename_core s m) m
      = unifile.clean_filename_core s m := by
  unfold unifile.clean_filename_core
  exact congrArg String.mk (clean_chars_idem s.data m)

/-- C4 (corrected, counterexample): the rglob-driven `process_path` — the
rewriter `main()` actually runs — is not bottom-up: on `root/münchen/café.txt`
its log (records are appended in execution order) starts with the rename of
the directory `münchen`, performed before its descendant `café.txt` has been
processed at all, so "a directory is never renamed (or merged) before all of
its descendants have been fully processed" is false for every-run
quantification. -/
theorem process_path_parent_renamed_first :
    (unifile.process_path nestedUmlautTree .ascii false).log
      = [.renamedDir muenchenDirName muenchenClean,
         .renamedFile cafeName cafeClean] := rfl

/-- C4 (amended): `process_directory`'s walk (`topdown=False`) is bottom-up,
while `process_path`'s rglob traversal renames a directory before its
children are visited; but because the glob lists each directory lazily —
after the rename — the children are visited under the fresh path, so a file
inside a directory whose name also needs cleaning still ends up at the final
cleaned directory path and is never lost under the pre-rename path:
`root/münchen/café.txt` becomes `root/muenchen/cafe.txt` under both
rewriters, and the lazy rescan carries renames to arbitrary depth
(`ä/ö/ü.txt` becomes `ae/oe/ue.txt`). -/
theorem process_path_lazy_rescan_preserves_children :
    unifile.process_path nestedUmlautTree .ascii false
      = .ok (.dir [(muenchenClean, .dir [(cafeClean, .file 3)])])
          [.renamedDir muenchenDirName muenchenClean,
           .renamedFile cafeName cafeClean] ∧
    unifile.process_directory nestedUmlautTree .ascii false
      = .ok (.dir [(muenchenClean, .dir [(cafeClean, .file 3)])])
          [.renamedFile cafeName cafeClean,
           .renamedDir muenchenDirName muenchenClean] ∧
    unifile.process_path deepUmlautTree .ascii false
      = .ok (.dir [(aCleanName, .dir [(oCleanName, .dir [(uCleanTxt, .file 9)])])])
          [.renamedDir aUmlName aCleanName, .renamedDir oUmlName oCleanName,
           .renamedFile uUmlTxt uCleanTxt] :=
  ⟨rfl, rfl, rfl⟩

/-- C5 (confirmed): with `dry_run` set, every rewriter of the repository —
`unifile.process_directory`, `utf8fix.process_directory` and
`unifile.process_path` — returns the tree unchanged and raises nothing; every
mutation branch is guarded by the dry-run check and only log records are
produced. -/
theorem dry_run_performs_no_mutation (t : FSTree) (m : Mode) (ms : String) :
    (unifile.process_directory t m true).fs = t ∧
    (unifile.process_directory t m true).isRaised = false ∧
    (utf8fix.process_directory t ms true).fs = t ∧
    (utf8fix.process_directory t ms true).isRaised = false ∧
    (unifile.process_path t m true).fs = t ∧
    (unifile.process_path t m true).isRaised = false := by
  obtain ⟨lg1, h1⟩ := unifile_processTree_dry m t
  obtain ⟨lg2, h2⟩ := utf8fix_dirsPassTree_dry ms t
  obtain ⟨lg3, h3⟩ := utf8fix_filesPassTree_dry ms t
  obtain ⟨lg4, h4⟩ := unifile_visitStart_dry m (unifile.rglobFuel t) t []
  unfold unifile.process_directory utf8fix.process_directory unifile.process_path
  rw [h1, h2, h4]
  dsimp only
  rw [h3]
  exact ⟨rfl, rfl, rfl, rfl, rfl, rfl⟩

/-- C6 (corrected, counterexample): the umlaut table exists only in the
`unifile` variant; `utf8fix.clean_filename` goes straight to NFKD, so ü *is*
collapsed to its bare base letter and ẞ (which has no decomposition and is
non-ASCII) is deleted outright. -/
theorem utf8fix_umlaut_collapses_to_base :
    utf8fix.clean_filename_core uberName asciiStr ≠ "ueber.txt" ∧
    utf8fix.clean_filename_core capEszettName asciiStr ≠ "Ss" := by
  constructor <;> decide

/-- C6 (amended): in the `unifile` variant the substitution table is applied
before NFKD, giving the claimed transliterations; in the `utf8fix` variant
there is no table: ü collapses to u and ß is deleted. -/
theorem umlaut_table_precedence_unifile_only :
    unifile.clean_filename_core uberName .ascii = "ueber.txt" ∧
    unifile.clean_filename_core muenchenUmlName .ascii = "Muenchen.txt" ∧
    unifile.clean_filename_core eszettName .ascii = "ss" ∧
    unifile.clean_filename_core capEszettName .ascii = "Ss" ∧
    utf8fix.clean_filename_core uberName asciiStr = "uber.txt" ∧
    utf8fix.clean_filename_core eszettName asciiStr = "" :=
  ⟨rfl, rfl, rfl, rfl, rfl, rfl⟩

/-- C7 (corrected, counterexample): in `unifile.process_directory` the merge
branch sits outside every `try`: when a grandchild move collides
(`shutil.Error`), the exception escapes `process_directory` and the walk
aborts — the directory `zöd`, later in the same listing, is left unprocessed
(only the file loop, which ran before the dirs loop, renamed `bäd.txt`). -/
theorem unifile_merge_error_aborts_walk :
    unifile.process_directory mergeAbortTree .ascii false
      = .raised .shutilError
          (.dir [(accTestName, .dir [(subName, .dir [(xName, .dir [])])]),
                 (plainTestName,
                  .dir [(subName, .dir [(xName, .dir [(xName, .dir [])])])]),
                 (zoedName, .dir []),
                 (baedClean, .file 7)])
          [.renamedFile baedName baedClean] := rfl

/-- C7 (amended): in `utf8fix.process_directory` every entry of both passes
is processed inside `try/except Exception`, so no run ever raises, and a
failed rename (here: `tést` colliding with the nonempty directory `test`) is
logged while traversal continues — the later entry `zöd` is still renamed. -/
theorem utf8fix_errors_isolated :
    (∀ (t : FSTree) (mode : String) (dry : Bool),
      (utf8fix.process_directory t mode dry).isRaised = false) ∧
    utf8fix.process_directory isolationTree asciiStr false
      = .ok (.dir [(accTestName, .dir [(fTxtName, .file 1)]),
                   (plainTestName, .dir [(fTxtName, .file 2)]),
                   (zodName, .dir [])])
          [.errorEntry accTestName, .renamedDir zoedName zodName] := by
  constructor
  · intro t mode dry
    unfold utf8fix.process_directory
    rfl
  · rfl

/-- C8 (code_bug): when the collapse leaves an empty final segment — a name
made only of control characters — the Python conditional expression
`'filewithNull' + ext if parts[-1] else ''` binds as
`('filewithNull' + ext) if parts[-1] else ''`, so `clean_filename` returns
the empty string, not the token `"filewithNull"` the spec promises. -/
theorem clean_filename_control_only_yields_empty :
    unifile.clean_filename_core nulName .preserve = "" ∧
    unifile.clean_filename_core nulName .ascii = "" ∧
    unifile.clean_filename_core nulName .preserve ≠ "filewithNull" := by
  refine ⟨rfl, rfl, ?_⟩
  decide

/-- C9 (corrected, counterexample): `utf8fix.clean_filename` performs no mode
validation: an unrecognized mode is silently treated as preserve and the call
returns normally instead of raising `ValueError`. -/
theorem utf8fix_clean_filename_skips_validation :
    utf8fix.clean_filename (.str aTxtName) (.str bogusMode) = .ok aTxtName := rfl

/-- C9 (amended): the `unifile` variant's `clean_filename` raises `TypeError`
on every non-string filename, raises `ValueError` on every mode outside
{preserve, ascii}, and returns normally on string inputs with a recognized
mode; the `utf8fix` variant checks neither (its `TypeError` for non-strings
comes from `re.sub`, and bad modes pass through). -/
theorem unifile_clean_filename_validation :
    (∀ f m : PyVal, (∀ s, f ≠ .str s) →
      unifile.clean_filename f m = .error .typeError) ∧
    (∀ (s : String) (m : PyVal), m ≠ .str preserveStr → m ≠ .str asciiStr →
      unifile.clean_filename (.str s) m = .error .valueError) ∧
    (∀ s : String, unifile.clean_filename (.str s) (.str preserveStr)
        = .ok (unifile.clean_filename_core s .preserve)) ∧
    (∀ s : String, unifile.clean_filename (.str s) (.str asciiStr)
        = .ok (unifile.clean_filename_core s .ascii)) ∧
    (∀ f m : PyVal, (∀ s, f ≠ .str s) →
      utf8fix.clean_filename f m = .error .typeError) := by
  have hpres : (⟨['p', 'r', 'e', 's', 'e', 'r', 'v', 'e']⟩ : String) = preserveStr := rfl
  have hasc : (⟨['a', 's', 'c', 'i', 'i']⟩ : String) = asciiStr := rfl
  refine ⟨?_, ?_, ?_, ?_, ?_⟩
  · intro f m hf
    cases f with
    | str s => exact absurd rfl (hf s)
    | int n => rfl
    | pyNone => rfl
  · intro s m h1 h2
    unfold unifile.clean_filename
    dsimp only
    rw [if_neg, if_neg]
    · intro hc
      rw [hc, hasc] at h2
      exact h2 rfl
    · intro hc
      rw [hc, hpres] at h1
      exact h1 rfl
  · intro s
    rfl
  · intro s
    rfl
  · intro f m hf
    cases f with
    | str s => exact absurd rfl (hf s)
    | int n => rfl
    | pyNone => rfl

/-- Witness for C9's amended theorem at concrete inputs. -/
theorem unifile_clean_filename_validation_witness :
    (∀ s, PyVal.int 3 ≠ PyVal.str s) ∧
    unifile.clean_filename (.int 3) (.str preserveStr) = .error .typeError ∧
    (PyVal.str bogusMode ≠ PyVal.str preserveStr) ∧
    (PyVal.str bogusMode ≠ PyVal.str asciiStr) ∧
    unifile.clean_filename (.str aTxtName) (.str bogusMode) = .error .valueError ∧
    unifile.clean_filename (.str aTxtName) (.str preserveStr)
      = .ok (unifile.clean_filename_core aTxtName .preserve) ∧
    utf8fix.clean_filename (.int 3) (.str preserveStr) = .error .typeError := by
  refine ⟨fun s => by simp, ?_, by decide, by decide, ?_, ?_, ?_⟩
  · exact unifile_clean_filename_validation.1 (.int 3) (.str preserveStr) (fun s => by simp)
  · exact unifile_clean_filename_validation.2.1 aTxtName (.str bogusMode)
      (by decide) (by decide)
  · exact unifile_clean_filename_validation.2.2.1 aTxtName
  · exact unifile_clean_filename_validation.2.2.2.2 (.int 3) (.str preserveStr)
      (fun s => by simp)

/-- C10 (confirmed): in the `src/unifile` variant the one-parameter
`clean_filename` defined later in the module shadows the documented
two-parameter one, so for every directory with at least one entry,
`process_directory` raises `TypeError` at its first `clean_filename(name,
mode)` call — whatever the mode and dry-run flag — before performing or even
planning (logging) any rename: the tree is returned unchanged and the log is
empty. -/
theorem src_process_directory_always_raises (cs : Children) (mode : PyVal)
    (dry : Bool) (h : cs ≠ []) :
    unifileSrc.process_directory (.dir cs) mode dry
      = .raised .typeError (.dir cs) [] := by
  unfold unifileSrc.process_directory
  rw [unifileSrc_processTree_spec]
  have hvac : FSTree.vacant (.dir cs) = false := by
    simp only [FSTree.vacant, List.isEmpty_eq_true]
    simpa using h
  rw [hvac]
  simp

/-- Witness for C10 at a one-file directory with a dry run. -/
theorem src_process_directory_always_raises_witness :
    ([(aTxtName, FSTree.file 0)] : Children) ≠ [] ∧
    unifileSrc.process_directory (.dir [(aTxtName, .file 0)]) (.str asciiStr) true
      = .raised .typeError (.dir [(aTxtName, .file 0)]) [] :=
  ⟨by simp,
   src_process_directory_always_raises [(aTxtName, FSTree.file 0)]
     (.str asciiStr) true (by simp)⟩
